import Mathlib

/-!
Verification of the Neutron chain-index store (`src/txdb-leveldb.cpp`) and
spork subsystem (`src/spork.h`): a shallow embedding of the batched
transaction layer, the block-index loader phases, and the tiered self-check,
with theorems settling the specification's claims about them.
-/

namespace Neutron

/-! ## Batched transaction layer (txdb-leveldb.cpp, lines 156-230)

A `leveldb::WriteBatch` is an ordered log of put/delete operations, appended
in program order and replayed in that order by `WriteBatch::Iterate`.
-/

/-- One pending operation of an open batch. -/
inductive BatchOp where
  | put (key value : String)
  | del (key : String)
deriving DecidableEq, Repr

/-- The key an operation addresses. -/
def BatchOp.key : BatchOp → String
  | .put k _ => k
  | .del k => k

/-- The mutable fields of `CBatchScanner` (lines 180-208): `foundEntry`,
`*deleted` and `*foundValue`. -/
structure ScanState where
  foundEntry : Bool
  deleted : Bool
  value : String
deriving DecidableEq, Repr

/-- One visitor callback of `CBatchScanner` (lines 190-207): a matching
`Put` records the value and clears `deleted`; a matching `Delete` sets
`deleted`; a non-matching operation leaves the state untouched. -/
def scannerStep (needle : String) (s : ScanState) : BatchOp → ScanState
  | .put k v => if k = needle then { foundEntry := true, deleted := false, value := v } else s
  | .del k => if k = needle then { foundEntry := true, deleted := true, value := s.value } else s

/-- `CTxDB::ScanBatch` (lines 216-230): initialise `*deleted = false`,
iterate the active batch in order through the scanner, return its final
state (`foundEntry` is the function's return value).  `v0` is the caller's
initial contents of the `value` buffer. -/
def ScanBatch (batch : List BatchOp) (needle : String) (v0 : String) : ScanState :=
  batch.foldl (scannerStep needle) { foundEntry := false, deleted := false, value := v0 }

/-- What a read during an open transaction observes for one key. -/
inductive BatchReadResult where
  | Found (v : String)
  | Tombstoned
  | NotInBatch
deriving DecidableEq, Repr

/-- Classification of the `ScanBatch` outcome as used by `CTxDB::Read`:
`foundEntry = false` defers to the store, otherwise `deleted` selects
tombstone versus found-with-value. -/
def scanResult (batch : List BatchOp) (needle : String) (v0 : String) : BatchReadResult :=
  let s := ScanBatch batch needle v0
  if s.foundEntry then (if s.deleted then .Tombstoned else .Found s.value) else .NotInBatch

/-- The last operation of the batch addressing `needle`, if any. -/
def lastMatch (batch : List BatchOp) (needle : String) : Option BatchOp :=
  batch.reverse.find? (fun op => op.key = needle)

/-- `CTxDB` transaction state: the optional active batch (`activeBatch`,
line 85), holding the pending log when a transaction is open. -/
structure TxDBState where
  activeBatch : Option (List BatchOp)
deriving DecidableEq, Repr

/-- `CTxDB::TxnBegin` (lines 156-161): asserts no batch is active (modelled
as `none` on violation), then installs a fresh empty batch and returns
`true`. -/
def TxnBegin (s : TxDBState) : Option (Bool × TxDBState) :=
  match s.activeBatch with
  | some _ => none
  | none => some (true, ⟨some []⟩)

/-- `CTxDB::TxnCommit` (lines 163-178): asserts a batch is active (modelled
as `none` on violation), hands the batch to the KV engine (whose success is
the parameter `engineOk`), deletes the batch unconditionally, and returns
the engine's verdict. -/
def TxnCommit (s : TxDBState) (engineOk : Bool) : Option (Bool × TxDBState) :=
  match s.activeBatch with
  | none => none
  | some _ => some (engineOk, ⟨none⟩)

/-! ### Batch-scan lemmas -/

theorem scanResult_eq_lastMatch (batch : List BatchOp) (needle v0 : String) :
    scanResult batch needle v0 =
      (match lastMatch batch needle with
       | none => BatchReadResult.NotInBatch
       | some (.put _ v) => BatchReadResult.Found v
       | some (.del _) => BatchReadResult.Tombstoned) := by
  induction batch using List.reverseRecOn with
  | nil => rfl
  | append_singleton xs x ih =>
    have hfold : ScanBatch (xs ++ [x]) needle v0
        = scannerStep needle (ScanBatch xs needle v0) x := by
      simp [ScanBatch, List.foldl_append]
    have hlast : lastMatch (xs ++ [x]) needle
        = if x.key = needle then some x else lastMatch xs needle := by
      simp only [lastMatch, List.reverse_append, List.reverse_cons, List.reverse_nil,
        List.nil_append, List.cons_append, List.find?_cons]
      by_cases hk : x.key = needle
      · simp [hk]
      · simp [hk]
    cases x with
    | put k v =>
      by_cases hk : k = needle
      · subst hk
        simp [scanResult, hfold, hlast, scannerStep, BatchOp.key]
      · simpa [scanResult, hfold, hlast, scannerStep, hk, BatchOp.key] using ih
    | del k =>
      by_cases hk : k = needle
      · subst hk
        simp [scanResult, hfold, hlast, scannerStep, BatchOp.key]
      · simpa [scanResult, hfold, hlast, scannerStep, hk, BatchOp.key] using ih

theorem lastMatch_eq_none_iff (batch : List BatchOp) (needle : String) :
    lastMatch batch needle = none ↔ ∀ op ∈ batch, op.key ≠ needle := by
  simp [lastMatch, List.find?_eq_none]

/-- **C2.** A read during an open transaction observes the transaction's
own pending state: when the target key appears in the pending log the scan
returns `Found(value)` if the (last) pending operation on it is a put and
`Tombstoned` if it is a delete, and returns `NotInBatch` (deferring to the
store) exactly when the key appears nowhere in the pending log. -/
theorem scanBatch_read_your_writes (batch : List BatchOp) (needle v0 : String) :
    (scanResult batch needle v0 =
      (match lastMatch batch needle with
       | none => BatchReadResult.NotInBatch
       | some (.put _ v) => BatchReadResult.Found v
       | some (.del _) => BatchReadResult.Tombstoned)) ∧
    (scanResult batch needle v0 = BatchReadResult.NotInBatch ↔
      ∀ op ∈ batch, op.key ≠ needle) := by
  refine ⟨scanResult_eq_lastMatch batch needle v0, ?_⟩
  rw [scanResult_eq_lastMatch batch needle v0, ← lastMatch_eq_none_iff batch needle]
  cases h : lastMatch batch needle with
  | none => simp
  | some op => cases op <;> simp

/-- **C10.** When the pending log holds several operations on one key, a
batch-scan read reports the effect of the last operation appended: each
matching put or delete overwrites the previously recorded result, so a put
followed by a delete reads as `Tombstoned` and a delete followed by a put
reads as `Found` with the later value. -/
theorem scanBatch_last_op_wins (batch : List BatchOp) (k v0 : String) :
    (∀ v, scanResult (batch ++ [.put k v]) k v0 = .Found v) ∧
    (scanResult (batch ++ [.del k]) k v0 = .Tombstoned) ∧
    (∀ v1, scanResult (batch ++ [.put k v1, .del k]) k v0 = .Tombstoned) ∧
    (∀ v1, scanResult (batch ++ [.del k, .put k v1]) k v0 = .Found v1) := by
  have hsuffix : ∀ (pre : List BatchOp) (x : BatchOp), x.key = k →
      lastMatch (pre ++ [x]) k = some x := by
    intro pre x hx
    simp [lastMatch, List.find?_cons, hx]
  refine ⟨?_, ?_, ?_, ?_⟩
  · intro v
    rw [scanResult_eq_lastMatch, hsuffix batch (.put k v) rfl]
  · rw [scanResult_eq_lastMatch, hsuffix batch (.del k) rfl]
  · intro v1
    rw [scanResult_eq_lastMatch, show batch ++ [BatchOp.put k v1, BatchOp.del k]
      = (batch ++ [BatchOp.put k v1]) ++ [BatchOp.del k] by simp,
      hsuffix _ (.del k) rfl]
  · intro v1
    rw [scanResult_eq_lastMatch, show batch ++ [BatchOp.del k, BatchOp.put k v1]
      = (batch ++ [BatchOp.del k]) ++ [BatchOp.put k v1] by simp,
      hsuffix _ (.put k v1) rfl]

/-- **C9.** A commit of a batched transaction that fails at the KV engine
returns `false` to the caller, discards the pending log (the active batch
is cleared), and leaves the handle usable: a subsequent `TxnBegin`
succeeds. -/
theorem txnCommit_failure_recoverable (b : List BatchOp) :
    ∃ s', TxnCommit ⟨some b⟩ false = some (false, s') ∧ s'.activeBatch = none ∧
      TxnBegin s' = some (true, ⟨some []⟩) :=
  ⟨⟨none⟩, rfl, rfl, rfl⟩

/-! ## Tiered self-check walk (txdb-leveldb.cpp, lines 521-680)

The verification loop walks the best chain from the tip towards genesis
(`for (pindex = pindexBest; pindex && pindex->pprev; pindex = pindex->pprev)`).
Every tier that finds a defect in the visited block executes
`pindexFork = pindex->pprev`.  After the walk, `block.SetBestChain(txdb,
pindexFork)` runs exactly when `pindexFork && !fRequestShutdown`.
-/

/-- A block visited by the self-check walk: its height, the identity of its
predecessor (`pprev`, non-null inside the walk by the loop condition), and
whether any active check tier flags it as defective during this walk. -/
structure WalkBlock where
  height : Int
  prev : Nat
  defective : Bool
deriving DecidableEq, Repr

/-- The fork-pointer accumulation of the walk: blocks are visited in walk
order (tip towards genesis); a defective block overwrites `pindexFork` with
its predecessor, a sound block leaves it unchanged. -/
def selfCheckWalk (walk : List WalkBlock) : Option Nat :=
  walk.foldl (fun fork b => if b.defective then some b.prev else fork) none

/-- Lines 667-680: whether the consensus collaborator's `SetBestChain` is
invoked after the walk. -/
def reorgInvoked (fork : Option Nat) (shutdownRequested : Bool) : Bool :=
  fork.isSome && !shutdownRequested

theorem selfCheckWalk_eq_find (walk : List WalkBlock) :
    selfCheckWalk walk =
      ((walk.reverse.find? fun b => b.defective).map fun b => b.prev) := by
  induction walk using List.reverseRecOn with
  | nil => rfl
  | append_singleton xs x ih =>
    have hfold : selfCheckWalk (xs ++ [x])
        = if x.defective then some x.prev else selfCheckWalk xs := by
      simp [selfCheckWalk, List.foldl_append]
    rw [hfold]
    simp only [List.reverse_append, List.reverse_cons, List.reverse_nil, List.nil_append,
      List.cons_append, List.find?_cons]
    cases hx : x.defective with
    | true => simp
    | false => simpa [hx] using ih

theorem find?_defective_min_height (l : List WalkBlock) (c : WalkBlock)
    (hasc : l.Pairwise (fun a b => a.height < b.height))
    (hfind : l.find? (fun b => b.defective) = some c) :
    ∀ d ∈ l, d.defective = true → c.height ≤ d.height := by
  induction l with
  | nil => simp at hfind
  | cons x tl ih =>
    rw [List.find?_cons] at hfind
    rcases List.pairwise_cons.mp hasc with ⟨hx, htl⟩
    cases hx' : x.defective with
    | true =>
      rw [hx'] at hfind
      simp only [Option.some.injEq] at hfind
      subst hfind
      intro d hd hdef
      rcases List.mem_cons.mp hd with rfl | hdtl
      · exact le_refl _
      · exact le_of_lt (hx d hdtl)
    | false =>
      rw [hx'] at hfind
      simp only at hfind
      intro d hd hdef
      rcases List.mem_cons.mp hd with rfl | hdtl
      · rw [hx'] at hdef; cases hdef
      · exact ih htl hfind d hdtl hdef

/-- **C5.** When several walked blocks are flagged defective, the fork
pointer left after the walk is the predecessor of the lowest-height flagged
block (the walk runs tip to genesis, heights strictly decreasing, and each
flag overwrites the pointer, so the deepest ancestor wins); no flag leaves
the pointer empty; and `SetBestChain` is invoked on the fork exactly when a
fork was recorded and shutdown was not requested. -/
theorem selfCheck_fork_deepest_flag_wins (walk : List WalkBlock)
    (hdesc : walk.Pairwise (fun a b => b.height < a.height)) :
    ((∀ b ∈ walk, b.defective = false) → selfCheckWalk walk = none) ∧
    (∀ b ∈ walk, b.defective = true →
      ∃ c ∈ walk, c.defective = true ∧ selfCheckWalk walk = some c.prev ∧
        ∀ d ∈ walk, d.defective = true → c.height ≤ d.height) ∧
    (∀ sd : Bool, reorgInvoked (selfCheckWalk walk) sd = true ↔
      (selfCheckWalk walk).isSome = true ∧ sd = false) := by
  have hasc : walk.reverse.Pairwise (fun a b => a.height < b.height) := by
    rw [List.pairwise_reverse]; exact hdesc
  refine ⟨?_, ?_, ?_⟩
  · intro hnone
    rw [selfCheckWalk_eq_find]
    have : walk.reverse.find? (fun b => b.defective) = none := by
      rw [List.find?_eq_none]
      intro x hx
      simp [hnone x (List.mem_reverse.mp hx)]
    simp [this]
  · intro b hb hdef
    have hsome : (walk.reverse.find? fun x => x.defective).isSome := by
      rw [List.find?_isSome]
      exact ⟨b, List.mem_reverse.mpr hb, by simp [hdef]⟩
    rcases Option.isSome_iff_exists.mp hsome with ⟨c, hc⟩
    have hcdef : c.defective = true := by simpa using List.find?_some hc
    refine ⟨c, List.mem_reverse.mp (List.mem_of_find?_eq_some hc), hcdef, ?_, ?_⟩
    · rw [selfCheckWalk_eq_find, hc]; rfl
    · intro d hd hddef
      exact find?_defective_min_height walk.reverse c hasc hc d
        (List.mem_reverse.mpr hd) hddef
  · intro sd
    cases sd <;> cases h : selfCheckWalk walk <;> simp [reorgInvoked, h]

/-- Witness for the self-check fork-selection theorem: a concrete walk of
three strictly descending blocks with the tip block and the deepest block
flagged. -/
theorem selfCheck_fork_deepest_flag_wins_witness :
    List.Pairwise (fun a b => b.height < a.height)
      [WalkBlock.mk 3 102 true, WalkBlock.mk 2 101 false, WalkBlock.mk 1 100 true] ∧
    (∀ b ∈ [WalkBlock.mk 3 102 true, WalkBlock.mk 2 101 false, WalkBlock.mk 1 100 true],
      b.defective = true →
      ∃ c ∈ [WalkBlock.mk 3 102 true, WalkBlock.mk 2 101 false, WalkBlock.mk 1 100 true],
        c.defective = true ∧
        selfCheckWalk [WalkBlock.mk 3 102 true, WalkBlock.mk 2 101 false,
          WalkBlock.mk 1 100 true] = some c.prev ∧
        ∀ d ∈ [WalkBlock.mk 3 102 true, WalkBlock.mk 2 101 false, WalkBlock.mk 1 100 true],
          d.defective = true → c.height ≤ d.height) :=
  ⟨by decide,
   (selfCheck_fork_deepest_flag_wins _ (by decide)).2.1⟩

/-! ## Level-2 transaction-index check (txdb-leveldb.cpp, lines 544-577)

For each transaction of a walked block whose `TxIndex` is readable, the
code enters the position check when `nCheckLevel > 2` or the stored
position `(txindex.pos.nFile, txindex.pos.nBlockPos)` differs from the
block's `(pindex->nFile, pindex->nBlockPos)`; it then reads the
transaction back from the stored position and flags
`pindexFork = pindex->pprev` only when that read fails or returns a
transaction whose hash differs (a readable duplicate with the same hash is
explicitly tolerated: "not a duplicate tx"). -/

/-- The inner per-transaction fragment (lines 552-577).  `txindexRead` is
the result of `ReadTxIndex` projected to the compared position fields
`(nFile, nBlockPos)`; `readTxHashAt` models `CTransaction::ReadFromDisk`
at a position followed by `GetHash()`, `none` when the read fails. -/
def level2TxCheck (nCheckLevel : Int) (blkFile blkPos prevBlock hashTx : Nat)
    (txindexRead : Option (Nat × Nat)) (readTxHashAt : Nat × Nat → Option Nat)
    (fork : Option Nat) : Option Nat :=
  match txindexRead with
  | none => fork
  | some pos =>
    if nCheckLevel > 2 ∨ pos.1 ≠ blkFile ∨ pos.2 ≠ blkPos then
      match readTxHashAt pos with
      | none => some prevBlock
      | some h => if h ≠ hashTx then some prevBlock else fork
    else fork

/-- The fragment together with its `nCheckLevel > 1` guard (line 545). -/
def txPosCheck (nCheckLevel : Int) (blkFile blkPos prevBlock hashTx : Nat)
    (txindexRead : Option (Nat × Nat)) (readTxHashAt : Nat × Nat → Option Nat)
    (fork : Option Nat) : Option Nat :=
  if nCheckLevel > 1 then
    level2TxCheck nCheckLevel blkFile blkPos prevBlock hashTx txindexRead readTxHashAt fork
  else fork

/-- **C4 (counterexample).** The claim as stated — at check level 2, a
stored `TxIndex.pos` disagreeing with the containing block's position
always sets the fork pointer to the block's predecessor — is false: when a
transaction with the expected hash is readable at the disagreeing stored
position (a duplicate transaction), the code leaves the fork pointer
unchanged. -/
theorem level2_flag_counterexample :
    ¬ (∀ (nCheckLevel : Int) (blkFile blkPos prevBlock hashTx : Nat)
         (pos : Nat × Nat) (readTxHashAt : Nat × Nat → Option Nat) (fork : Option Nat),
         2 ≤ nCheckLevel → pos ≠ (blkFile, blkPos) →
         txPosCheck nCheckLevel blkFile blkPos prevBlock hashTx (some pos) readTxHashAt fork
           = some prevBlock) := by
  intro hcl
  have h1 := hcl 2 0 1 42 7 (0, 5) (fun _ => some 7) none (by norm_num) (by decide)
  have h2 : txPosCheck 2 0 1 42 7 (some (0, 5)) (fun _ => some 7) none = none := by decide
  rw [h2] at h1
  cases h1

/-- **C4 (amended).** With check level ≥ 2, for a transaction whose
`TxIndex` is readable and whose stored position disagrees with the
containing block's `(file, offset)`, the fork pointer is set to the block's
predecessor exactly when the transaction at the stored position cannot be
read back or reads back with a different hash; a readable duplicate with
the expected hash leaves the fork pointer unchanged. -/
theorem level2_mislocated_tx_flags_fork (nCheckLevel : Int)
    (blkFile blkPos prevBlock hashTx : Nat) (pos : Nat × Nat)
    (readTxHashAt : Nat × Nat → Option Nat) (fork : Option Nat)
    (hlvl : 2 ≤ nCheckLevel) (hpos : pos ≠ (blkFile, blkPos)) :
    txPosCheck nCheckLevel blkFile blkPos prevBlock hashTx (some pos) readTxHashAt fork
      = (if readTxHashAt pos = some hashTx then fork else some prevBlock) := by
  have hne : pos.1 ≠ blkFile ∨ pos.2 ≠ blkPos := by
    by_contra hcon
    push_neg at hcon
    exact hpos (Prod.ext hcon.1 hcon.2)
  have hguard : nCheckLevel > 1 := by omega
  have hcond : nCheckLevel > 2 ∨ pos.1 ≠ blkFile ∨ pos.2 ≠ blkPos := Or.inr hne
  rw [txPosCheck, if_pos hguard, level2TxCheck]
  rw [if_pos hcond]
  cases hread : readTxHashAt pos with
  | none => simp [hread]
  | some h =>
    by_cases hh : h = hashTx
    · subst hh; simp
    · simp [hh, Ne.symm]

/-- Witness for the amended level-2 check: at level 2 with a mismatched
stored position whose read-back fails, the fork is flagged at the block's
predecessor. -/
theorem level2_mislocated_tx_flags_fork_witness :
    (2:Int) ≤ 2 ∧ ((0, 5) : Nat × Nat) ≠ (0, 1) ∧
    txPosCheck 2 0 1 42 7 (some (0, 5)) (fun _ => none) none
      = (if (fun (_ : Nat × Nat) => (none : Option Nat)) (0, 5) = some 7
         then (none : Option Nat) else some 42) :=
  ⟨by norm_num, by decide,
   level2_mislocated_tx_flags_fork 2 0 1 42 7 (0, 5) (fun _ => none) none
     (by norm_num) (by decide)⟩

/-! ## Phase 2 height sort (txdb-leveldb.cpp, lines 452-462)

`vSortedByHeight` holds entries `make_pair(pindex->nHeight, pindex)` of
type `pair<int, CBlockIndex*>`, and `sort` orders them by the pair's
lexicographic `operator<`: by height, and between equal heights by the
**pointer value** of the node — not by its block hash.  Since all pointers
are distinct, the sorted permutation is unique, so any comparison sort
(here modelled by insertion sort) computes the same list. -/

/-- One entry of `vSortedByHeight`: the node's height (`int`), the node's
pointer value (`CBlockIndex*`, modelled as a number), and the node's block
hash (which the comparison never consults). -/
structure IndexNode where
  height : Int
  ptr : Nat
  hash : Nat
deriving DecidableEq, Repr

/-- The order `sort` applies to `pair<int, CBlockIndex*>` entries:
lexicographic on height, then on pointer value. -/
def sourceLe (a b : IndexNode) : Prop :=
  a.height < b.height ∨ (a.height = b.height ∧ a.ptr ≤ b.ptr)

/-- The order claimed by the specification: lexicographic on height, with
ties broken by block hash. -/
def specHashLe (a b : IndexNode) : Prop :=
  a.height < b.height ∨ (a.height = b.height ∧ a.hash ≤ b.hash)

instance : DecidableRel sourceLe := fun a b =>
  inferInstanceAs (Decidable (a.height < b.height ∨ (a.height = b.height ∧ a.ptr ≤ b.ptr)))

instance : DecidableRel specHashLe := fun a b =>
  inferInstanceAs (Decidable (a.height < b.height ∨ (a.height = b.height ∧ a.hash ≤ b.hash)))

instance : IsTotal IndexNode sourceLe :=
  ⟨by intro a b; unfold sourceLe; omega⟩

instance : IsTrans IndexNode sourceLe :=
  ⟨by intro a b c; unfold sourceLe; omega⟩

/-- The Phase 2 sort as the source performs it. -/
def sortSourceByHeight (l : List IndexNode) : List IndexNode :=
  l.insertionSort sourceLe

/-- Modelled from the spec: the Phase 2 sort as the specification words it
(ties between equal-height nodes broken by block hash lex order). -/
def sortSpecByHeight (l : List IndexNode) : List IndexNode :=
  l.insertionSort specHashLe

/-- **C6 (counterexample).** The claim that the Phase 2 sort breaks
equal-height ties by lexicographic block-hash order is false: for two
equal-height nodes whose pointer order opposes their hash order, the
source's sort (keyed on the node pointer) produces the opposite order from
the hash-tie-break sort. -/
theorem height_sort_tiebreak_counterexample :
    ¬ (∀ l : List IndexNode, sortSourceByHeight l = sortSpecByHeight l) := by
  intro hcl
  have h1 := hcl [⟨0, 2, 3⟩, ⟨0, 1, 5⟩]
  have h2 : sortSourceByHeight [⟨0, 2, 3⟩, ⟨0, 1, 5⟩]
      ≠ sortSpecByHeight [⟨0, 2, 3⟩, ⟨0, 1, 5⟩] := by decide
  exact h2 h1

/-- **C6 (amended).** The Phase 2 sort arranges the collected nodes in a
permutation sorted ascending by height, with ties between equal-height
nodes broken by the node's pointer value (its memory address), not by its
block hash; consequently heights are nondecreasing along the processing
order. -/
theorem height_sort_by_height_then_ptr (l : List IndexNode) :
    List.Perm (sortSourceByHeight l) l ∧
    (sortSourceByHeight l).Sorted sourceLe ∧
    (sortSourceByHeight l).Pairwise (fun a b => a.height ≤ b.height) := by
  refine ⟨List.perm_insertionSort sourceLe l, List.sorted_insertionSort sourceLe l, ?_⟩
  have h := List.sorted_insertionSort sourceLe l
  exact h.imp (by intro a b hab; unfold sourceLe at hab; omega)

/-! ## Phase 3 tip resolution (txdb-leveldb.cpp, lines 477-487)

When `ReadHashBestChain` fails, the code tests
`blockIndex.contains(fTestNet ? hashGenesisBlock : hashGenesisBlockTestNet)`:
note the ternary selects the **main-net** genesis hash on test-net and the
**test-net** genesis hash on main-net, the opposite of the conventional
selection `!fTestNet ? hashGenesisBlock : hashGenesisBlockTestNet` that the
same file's commented-out line 432 uses. -/

/-- Modelled from the spec: the main-network genesis block hash
(`hashGenesisBlock` is defined outside this repository's sources); only its
distinctness from the test-network genesis hash matters here. -/
def hashGenesisBlock : Nat := 1

/-- Modelled from the spec: the test-network genesis block hash
(`hashGenesisBlockTestNet` is defined outside this repository's sources). -/
def hashGenesisBlockTestNet : Nat := 2

/-- Outcome of the tip-resolution step. -/
inductive TipResolution where
  | ok
  | bestChainMissing
  | proceed (tip : Nat)
deriving DecidableEq, Repr

/-- Lines 477-484 as written: if `hashBestChain` is unreadable, return
success when the consulted genesis hash is absent from the block index and
the `BestChainMissing` error when it is present; otherwise proceed with the
read tip. -/
def resolveTip (readBest : Option Nat) (blockIndexContains : Nat → Bool)
    (fTestNet : Bool) : TipResolution :=
  match readBest with
  | none =>
    if blockIndexContains (if fTestNet then hashGenesisBlock else hashGenesisBlockTestNet)
    then .bestChainMissing
    else .ok
  | some h => .proceed h

/-- Modelled from the spec: the same step consulting the node's own
network's genesis hash, as the specification and claim describe. -/
def resolveTipSpec (readBest : Option Nat) (blockIndexContains : Nat → Bool)
    (fTestNet : Bool) : TipResolution :=
  match readBest with
  | none =>
    if blockIndexContains (if fTestNet then hashGenesisBlockTestNet else hashGenesisBlock)
    then .bestChainMissing
    else .ok
  | some h => .proceed h

/-- **C7 (divergence).** On a main-net node (`fTestNet = false`) whose
block index contains the main-net genesis but, with `hashBestChain` absent,
the code consults the *test-net* genesis hash and returns success, while
the claim (and the spec) require the `BestChainMissing` failure — the
ternary at line 480 selects the wrong network's genesis hash.  On a fresh
node (empty index) both agree on success. -/
theorem resolveTip_wrong_genesis_network :
    resolveTip none (fun h => h == hashGenesisBlock) false = .ok ∧
    resolveTipSpec none (fun h => h == hashGenesisBlock) false = .bestChainMissing ∧
    resolveTip none (fun _ => false) false = .ok ∧
    resolveTipSpec none (fun _ => false) false = .ok := by
  refine ⟨rfl, ?_, rfl, rfl⟩
  decide

/-! ## Schema-version migration on open (txdb-leveldb.cpp, lines 45-135)

`CTxDB::CTxDB` opens the `txleveldb` database; when a stored `"version"`
is below `DATABASE_VERSION` it deletes the LevelDB handle, calls
`init_blockindex(options, true)` — which runs `remove_all` on the
directory and deletes `blk%04u.dat` for file numbers 1, 2, ... until the
first missing one — and then writes the current version into the freshly
created database. -/

/-- Contents of the `txleveldb` database: the stored schema version, if
any, and its remaining records (kept abstract). -/
structure LevelDBContents where
  version : Option Int
  records : List Nat
deriving DecidableEq, Repr

/-- The on-disk state the constructor touches: the `txleveldb` directory
(`none` when absent) and the set of present `blk<NNNN>.dat` file numbers. -/
structure FsState where
  txleveldb : Option LevelDBContents
  blkFiles : Finset Nat
deriving DecidableEq

/-- The deletion loop of `init_blockindex` (lines 52-65): starting at file
number `n`, delete `blk%04u.dat` while the file exists; stop at the first
missing number. -/
def removeBlkLoop (n : Nat) (s : Finset Nat) : Finset Nat :=
  if h : n ∈ s then removeBlkLoop (n + 1) (s.erase n) else s
termination_by s.card
decreasing_by exact Finset.card_erase_lt_of_mem h

/-- `CTxDB::CTxDB` (lines 82-135) restricted to its on-disk effect for a
fresh process (`txdb == NULL`).  `fCreate` models `strchr(pszMode, 'c')`
(it sets LevelDB's `create_if_missing`); `cur` is `DATABASE_VERSION` (a
constant defined outside these sources).  `none` models a thrown open
error (LevelDB cannot open an absent database without
`create_if_missing`). -/
def ctorOpen (cur : Int) (fCreate : Bool) (fs : FsState) : Option FsState :=
  match fs.txleveldb with
  | none =>
    if fCreate then
      some { txleveldb := some { version := some cur, records := [] },
             blkFiles := fs.blkFiles }
    else none
  | some db =>
    match db.version with
    | some v =>
      if v < cur then
        if fCreate then
          some { txleveldb := some { version := some cur, records := [] },
                 blkFiles := removeBlkLoop 1 fs.blkFiles }
        else none
      else some fs
    | none =>
      if fCreate then
        some { fs with txleveldb := some { db with version := some cur } }
      else some fs

theorem removeBlkLoop_mem (n : Nat) (s : Finset Nat) (m : Nat) :
    m ∈ removeBlkLoop n s ↔
      m ∈ s ∧ ¬(n ≤ m ∧ ∀ j, n ≤ j → j ≤ m → j ∈ s) := by
  induction n, s using removeBlkLoop.induct with
  | case1 n s h ih =>
    have hstep : removeBlkLoop n s = removeBlkLoop (n + 1) (s.erase n) := by
      rw [removeBlkLoop]
      simp [h]
    rw [hstep, ih]
    by_cases hm : m = n
    · subst hm
      constructor
      · intro hL
        exact absurd (Finset.mem_erase.mp hL.1).1 (by simp)
      · rintro ⟨hns, hno⟩
        exfalso
        apply hno
        exact ⟨le_refl m, fun j hj1 hj2 => by
          have hjm : j = m := le_antisymm hj2 hj1
          rwa [hjm]⟩
    · constructor
      · rintro ⟨hms, hno⟩
        rw [Finset.mem_erase] at hms
        refine ⟨hms.2, ?_⟩
        rintro ⟨hnm, hall⟩
        apply hno
        refine ⟨by omega, ?_⟩
        intro j hj1 hj2
        rw [Finset.mem_erase]
        exact ⟨by omega, hall j (by omega) hj2⟩
      · rintro ⟨hms, hno⟩
        refine ⟨Finset.mem_erase.mpr ⟨hm, hms⟩, ?_⟩
        rintro ⟨hnm, hall⟩
        apply hno
        refine ⟨by omega, ?_⟩
        intro j hj1 hj2
        rcases Nat.eq_or_lt_of_le hj1 with rfl | hlt
        · exact h
        · exact (Finset.mem_erase.mp (hall j (by omega) hj2)).2
  | case2 n s h =>
    have hstep : removeBlkLoop n s = s := by
      rw [removeBlkLoop]
      simp [h]
    rw [hstep]
    constructor
    · intro hm
      refine ⟨hm, ?_⟩
      rintro ⟨hnm, hall⟩
      exact h (hall n (le_refl n) hnm)
    · exact fun hm => hm.1

/-- **C8.** Opening the database with a stored schema version strictly
below the current `DATABASE_VERSION` wipes the `txleveldb` directory and
recreates it fresh with the current version as its only content (so a
subsequent load runs over empty state), and deletes the block files
`blk<NNNN>.dat` for NNNN = 1, 2, ... up to the first missing number: a
file number `m` survives the wipe exactly when it was present and the run
`1..m` was broken by some absent number. -/
theorem open_version_migration (cur v : Int) (db : LevelDBContents) (blk : Finset Nat)
    (hver : db.version = some v) (hlt : v < cur) :
    ctorOpen cur true ⟨some db, blk⟩
      = some ⟨some ⟨some cur, []⟩, removeBlkLoop 1 blk⟩ ∧
    ∀ m : Nat, m ∈ removeBlkLoop 1 blk ↔
      m ∈ blk ∧ ¬(1 ≤ m ∧ ∀ j, 1 ≤ j → j ≤ m → j ∈ blk) := by
  refine ⟨?_, fun m => removeBlkLoop_mem 1 blk m⟩
  simp [ctorOpen, hver, hlt]

/-- Witness for the migration theorem: stored version 1, current version 2,
three consecutive block files and one beyond a gap. -/
theorem open_version_migration_witness :
    (some (1:Int) = some 1 ∧ (1:Int) < 2) ∧
    ctorOpen 2 true ⟨some ⟨some 1, [7]⟩, ({1, 2, 5} : Finset Nat)⟩
      = some ⟨some ⟨some 2, []⟩, removeBlkLoop 1 ({1, 2, 5} : Finset Nat)⟩ :=
  ⟨⟨rfl, by norm_num⟩,
   (open_version_migration 2 1 ⟨some 1, [7]⟩ {1, 2, 5} rfl (by norm_num)).1⟩

/-! ## Phase 2 chain trust (txdb-leveldb.cpp, lines 452-475)

After the streaming load, every node is processed in ascending height
order, executing
`pindex->nChainTrust = (pindex->pprev ? pindex->pprev->nChainTrust : 0) + pindex->GetBlockTrust()`
(line 467).  `nChainTrust` is a `uint256`, so the addition wraps modulo
`2^256`. -/

/-- The modulus of `uint256` arithmetic. -/
def U256 : Nat := 2 ^ 256

/-- A block-index node as Phase 2 sees it: its block hash (its identity in
`mapBlockIndex`), its resolved parent hash (`pprev`; `none` when the
parent pointer is null), its height, and the value of `GetBlockTrust()`
(a `uint256` value). -/
structure LoadedNode where
  hash : Nat
  prev : Option Nat
  height : Int
  blockTrust : Nat
deriving DecidableEq, Repr

/-- One Phase 2 assignment (line 467), updating the chain-trust table at
the processed node's hash. -/
def phase2Step (trust : Nat → Nat) (n : LoadedNode) : Nat → Nat :=
  fun h =>
    if h = n.hash
    then ((match n.prev with | some p => trust p | none => 0) + n.blockTrust) % U256
    else trust h

/-- The Phase 2 pass: process the nodes in the given order, starting from
the chain-trust table `init`. -/
def phase2 (order : List LoadedNode) (init : Nat → Nat) : Nat → Nat :=
  order.foldl phase2Step init

/-- Node lookup by block hash in the loaded collection. -/
def lookupNode (order : List LoadedNode) (h : Nat) : Option LoadedNode :=
  order.find? (fun n => n.hash == h)

/-- `ChainTrustSum env h t` states that `t` is the sum — as `uint256`
values, i.e. accumulated modulo `2^256` — of `block_trust` along the
parent chain from the node registered at hash `h` back to its chain root
(a node whose parent pointer is null). -/
inductive ChainTrustSum (env : Nat → Option LoadedNode) : Nat → Nat → Prop
  | root (h : Nat) (n : LoadedNode) (henv : env h = some n) (hprev : n.prev = none) :
      ChainTrustSum env h ((0 + n.blockTrust) % U256)
  | step (h : Nat) (n : LoadedNode) (p t : Nat) (henv : env h = some n)
      (hprev : n.prev = some p) (hsum : ChainTrustSum env p t) :
      ChainTrustSum env h ((t + n.blockTrust) % U256)

theorem phase2_append (xs ys : List LoadedNode) (init : Nat → Nat) :
    phase2 (xs ++ ys) init = phase2 ys (phase2 xs init) := by
  simp [phase2, List.foldl_append]

theorem phase2_stable (l : List LoadedNode) (init : Nat → Nat) (h : Nat)
    (hno : ∀ n ∈ l, n.hash ≠ h) : phase2 l init h = init h := by
  induction l generalizing init with
  | nil => rfl
  | cons x tl ih =>
    have hx : x.hash ≠ h := hno x (by simp)
    have hcons : phase2 (x :: tl) init = phase2 tl (phase2Step init x) := rfl
    rw [hcons, ih (phase2Step init x) (fun n hn => hno n (by simp [hn]))]
    simp only [phase2Step]
    rw [if_neg (fun hcon => hx hcon.symm)]

theorem lookupNode_append_left (xs ys : List LoadedNode) (h : Nat) (n : LoadedNode)
    (hfind : lookupNode xs h = some n) : lookupNode (xs ++ ys) h = some n := by
  rw [lookupNode, List.find?_append]
  rw [lookupNode] at hfind
  rw [hfind]
  rfl

theorem chainTrustSum_mono (xs ys : List LoadedNode) (h t : Nat)
    (hsum : ChainTrustSum (lookupNode xs) h t) :
    ChainTrustSum (lookupNode (xs ++ ys)) h t := by
  induction hsum with
  | root h0 n henv hprev =>
    exact .root h0 n (lookupNode_append_left xs ys h0 n henv) hprev
  | step h0 n p t henv hprev hsum ih =>
    exact .step h0 n p t (lookupNode_append_left xs ys h0 n henv) hprev ih

theorem chainTrustSum_unique (env : Nat → Option LoadedNode) (h t : Nat)
    (h1 : ChainTrustSum env h t) :
    ∀ t', ChainTrustSum env h t' → t = t' := by
  induction h1 with
  | root h0 n henv hprev =>
    intro t' h2
    cases h2 with
    | root h2h n2 henv2 hprev2 =>
      rw [henv] at henv2
      cases henv2
      rfl
    | step h2h n2 p2 t2 henv2 hprev2 hsum2 =>
      rw [henv] at henv2
      cases henv2
      rw [hprev] at hprev2
      cases hprev2
  | step h0 n p t henv hprev hsum ih =>
    intro t' h2
    cases h2 with
    | root h2h n2 henv2 hprev2 =>
      rw [henv] at henv2
      cases henv2
      rw [hprev2] at hprev
      cases hprev
    | step h2h n2 p2 t2 henv2 hprev2 hsum2 =>
      rw [henv] at henv2
      cases henv2
      rw [hprev] at hprev2
      cases hprev2
      rw [ih t2 hsum2]

theorem hash_ne_of_snoc_nodup (zs : List LoadedNode) (x n : LoadedNode)
    (hdist : ((zs ++ [x]).map LoadedNode.hash).Nodup) (hn : n ∈ zs) :
    n.hash ≠ x.hash := by
  rw [List.map_append] at hdist
  exact (List.pairwise_append.mp hdist).2.2 n.hash
    (List.mem_map_of_mem LoadedNode.hash hn) x.hash (by simp)

theorem lookupNode_snoc_self (zs : List LoadedNode) (x : LoadedNode)
    (hdist : ((zs ++ [x]).map LoadedNode.hash).Nodup) :
    lookupNode (zs ++ [x]) x.hash = some x := by
  rw [lookupNode, List.find?_append]
  have h1 : zs.find? (fun n => n.hash == x.hash) = none := by
    rw [List.find?_eq_none]
    intro n hn
    simp only [beq_iff_eq]
    exact hash_ne_of_snoc_nodup zs x n hdist hn
  rw [h1]
  simp [List.find?_cons]

theorem mem_prefix_of_lt_height (xs ys : List LoadedNode) (n m : LoadedNode)
    (hsorted : (xs ++ ys).Pairwise (fun a b => a.height ≤ b.height))
    (hn : n ∈ xs) (hm : m ∈ xs ++ ys) (hlt : m.height < n.height) : m ∈ xs := by
  rcases List.mem_append.mp hm with hx | hy
  · exact hx
  · exfalso
    have := (List.pairwise_append.mp hsorted).2.2 n hn m hy
    omega

theorem phase2_aux (init : Nat → Nat) (xs : List LoadedNode) :
    ∀ ys : List LoadedNode,
      ((xs ++ ys).map LoadedNode.hash).Nodup →
      (xs ++ ys).Pairwise (fun a b => a.height ≤ b.height) →
      (∀ n ∈ xs ++ ys, ∀ p, n.prev = some p →
        ∃ m, m ∈ xs ++ ys ∧ m.hash = p ∧ m.height < n.height) →
      ∀ n ∈ xs, ChainTrustSum (lookupNode xs) n.hash (phase2 xs init n.hash) := by
  induction xs using List.reverseRecOn with
  | nil =>
    intro ys _ _ _ n hn
    cases hn
  | append_singleton zs x ih =>
    intro ys hdist hsorted hparent n hn
    have hassoc : (zs ++ [x]) ++ ys = zs ++ ([x] ++ ys) := by
      rw [List.append_assoc]
    rw [hassoc] at hdist hsorted hparent
    have ihz := ih ([x] ++ ys) hdist hsorted hparent
    have hdistx : ((zs ++ [x]).map LoadedNode.hash).Nodup := by
      rw [← List.append_assoc] at hdist
      rw [List.map_append] at hdist
      exact hdist.of_append_left
    have hsortedx : (zs ++ [x]).Pairwise (fun a b => a.height ≤ b.height) := by
      rw [← List.append_assoc] at hsorted
      exact (List.pairwise_append.mp hsorted).1
    rcases List.mem_append.mp hn with hnz | hnx
    · -- a node of the strict prefix: its trust is unchanged by processing x
      have hne : n.hash ≠ x.hash := hash_ne_of_snoc_nodup zs x n hdistx hnz
      have hval : phase2 (zs ++ [x]) init n.hash = phase2 zs init n.hash := by
        rw [phase2_append]
        have : phase2 [x] (phase2 zs init) n.hash
            = phase2Step (phase2 zs init) x n.hash := rfl
        rw [this]
        simp only [phase2Step]
        rw [if_neg hne]
      rw [hval]
      exact chainTrustSum_mono zs [x] n.hash _ (ihz n hnz)
    · -- the newly processed node x itself
      have hx : n = x := by
        cases hnx with
        | head => rfl
        | tail _ h => cases h
      subst hx
      have henv : lookupNode (zs ++ [n]) n.hash = some n := lookupNode_snoc_self zs n hdistx
      have hval : phase2 (zs ++ [n]) init n.hash
          = ((match n.prev with | some p => phase2 zs init p | none => 0)
              + n.blockTrust) % U256 := by
        rw [phase2_append]
        have : phase2 [n] (phase2 zs init) n.hash
            = phase2Step (phase2 zs init) n n.hash := rfl
        rw [this]
        simp [phase2Step]
      rw [hval]
      cases hprev : n.prev with
      | none =>
        exact ChainTrustSum.root n.hash n henv hprev
      | some p =>
        rcases hparent n (by rw [← hassoc]; exact List.mem_append_left ys hn) p hprev
          with ⟨m, hmmem, hmhash, hmlt⟩
        rw [← hassoc] at hmmem
        have hmx : m ∈ zs ++ [n] :=
          mem_prefix_of_lt_height (zs ++ [n]) ys n m (by rw [hassoc]; exact hsorted) hn hmmem hmlt
        have hmz : m ∈ zs := by
          rcases List.mem_append.mp hmx with h1 | h1
          · exact h1
          · exfalso
            have : m = n := by
              cases h1 with
              | head => rfl
              | tail _ h => cases h
            subst this
            omega
        have hsum := chainTrustSum_mono zs [n] m.hash _ (ihz m hmz)
        rw [hmhash] at hsum
        exact ChainTrustSum.step n.hash n p (phase2 zs init p) henv hprev hsum

theorem lookupNode_mem (order : List LoadedNode) (n : LoadedNode)
    (hdist : (order.map LoadedNode.hash).Nodup) (hn : n ∈ order) :
    lookupNode order n.hash = some n := by
  induction order with
  | nil => cases hn
  | cons x tl ih =>
    rw [List.map_cons] at hdist
    rcases List.mem_cons.mp hn with rfl | htl
    · rw [lookupNode, List.find?_cons]
      simp
    · have hx : x.hash ≠ n.hash := by
        intro hcon
        exact (List.nodup_cons.mp hdist).1
          (hcon ▸ List.mem_map_of_mem LoadedNode.hash htl)
      rw [lookupNode, List.find?_cons]
      have hfalse : (x.hash == n.hash) = false := by simp [hx]
      rw [hfalse]
      exact ih (List.nodup_cons.mp hdist).2 htl

/-- **C1.** After the Phase 2 pass — nodes processed in ascending height
order (each parent, having strictly smaller height, before its children;
block hashes distinct) — every loaded node satisfies the local invariant
`chain_trust = (parent ? parent.chain_trust : 0) + block_trust(self)` over
the final trust table, and equivalently its chain trust is the sum (as
`uint256` values) of `block_trust` along its parent chain back to its
chain root. -/
theorem load_chain_trust_invariant (order : List LoadedNode) (init : Nat → Nat)
    (hdist : (order.map LoadedNode.hash).Nodup)
    (hsorted : order.Pairwise (fun a b => a.height ≤ b.height))
    (hparent : ∀ n ∈ order, ∀ p, n.prev = some p →
      ∃ m, m ∈ order ∧ m.hash = p ∧ m.height < n.height) :
    ∀ n ∈ order,
      phase2 order init n.hash =
        ((match n.prev with | some p => phase2 order init p | none => 0)
          + n.blockTrust) % U256 ∧
      ChainTrustSum (lookupNode order) n.hash (phase2 order init n.hash) := by
  have haux := phase2_aux init order []
  simp only [List.append_nil] at haux
  have haux2 := haux hdist hsorted hparent
  intro n hn
  refine ⟨?_, haux2 n hn⟩
  cases hprev : n.prev with
  | none =>
    have hroot : ChainTrustSum (lookupNode order) n.hash ((0 + n.blockTrust) % U256) :=
      .root n.hash n (lookupNode_mem order n hdist hn) hprev
    exact chainTrustSum_unique _ _ _ (haux2 n hn) _ hroot
  | some p =>
    rcases hparent n hn p hprev with ⟨m, hm, hmh, _⟩
    have hpar := haux2 m hm
    rw [hmh] at hpar
    have hstep : ChainTrustSum (lookupNode order) n.hash
        ((phase2 order init p + n.blockTrust) % U256) :=
      .step n.hash n p _ (lookupNode_mem order n hdist hn) hprev hpar
    exact chainTrustSum_unique _ _ _ (haux2 n hn) _ hstep

/-- Witness for the chain-trust invariant: a two-node chain (genesis of
height 0 and trust 5, child of height 1 and trust 7), starting from the
all-zero trust table. -/
theorem load_chain_trust_invariant_witness :
    phase2 ([⟨10, none, 0, 5⟩, ⟨11, some 10, 1, 7⟩] : List LoadedNode) (fun _ => 0) 11
      = ((match (some 10 : Option Nat) with
          | some p => phase2 ([⟨10, none, 0, 5⟩, ⟨11, some 10, 1, 7⟩] : List LoadedNode)
              (fun _ => 0) p
          | none => 0) + 7) % U256 ∧
    ChainTrustSum (lookupNode ([⟨10, none, 0, 5⟩, ⟨11, some 10, 1, 7⟩] : List LoadedNode)) 11
      (phase2 ([⟨10, none, 0, 5⟩, ⟨11, some 10, 1, 7⟩] : List LoadedNode) (fun _ => 0) 11) :=
  load_chain_trust_invariant ([⟨10, none, 0, 5⟩, ⟨11, some 10, 1, 7⟩] : List LoadedNode)
    (fun _ => 0) (by decide) (by decide)
    (by
      intro n hn p hp
      rcases List.mem_cons.mp hn with rfl | hn2
      · cases hp
      · rcases List.mem_cons.mp hn2 with rfl | hn3
        · cases hp
          exact ⟨⟨10, none, 0, 5⟩, by simp, rfl, by norm_num⟩
        · cases hn3)
    ⟨11, some 10, 1, 7⟩ (by simp)

end Neutron
